import Mathlib

/-!
Verification development for the Poker_game repository
(`Poker_core.py`, `Poker_game.py`).

The Python source is shallowly embedded below:

* `Card` keeps the numeric rank value (index into `"23456789TJQKA"`, 0..12)
  and a numeric suit index (0..3); `evaluate_five` only ever uses the rank
  value and suit equality, so this is a faithful rendering of the Python
  `Card` dataclass for all operations modelled here.
* Python `int`s are embedded as `Int` (they are unbounded and signed; the
  betting engine can in fact drive a stack negative, so `Nat` would be
  unfaithful).
* Python lists are `List`, tuple comparison (`>` on
  `(HandRank, List[int])`) is the boolean `pyLtB` below, and Python's
  floor division `//` is `Int.fdiv`.
* Exceptions are `Except String`; the spec-level error names
  (`InsufficientCards`, `InvalidHandSize`) are used as the payloads.
* The `betting_round` while-loop of `Poker_game.py` is embedded as a step
  function `step` on an explicit `BetState` plus a fuel-indexed runner
  `run`; `step` mirrors the loop body line by line.
-/

/-- Python `Card` (`Poker_core.py` lines 13-27): `rankv` is
`RANKS.index(self.rank)` (0..12), `suit` the suit symbol's index (0..3). -/
structure Card where
  rankv : Nat
  suit : Nat
deriving DecidableEq

/-- Descending `≥` relation used for Python's `sorted(..., reverse=True)`
on rank values. -/
def natGe (a b : Nat) : Prop := b ≤ a

instance : DecidableRel natGe := fun a b => Nat.decLe b a

instance : IsTotal Nat natGe := ⟨fun a b => Nat.le_total b a⟩

instance : IsTrans Nat natGe := ⟨fun _ _ _ h h' => Nat.le_trans h' h⟩

instance : IsAntisymm Nat natGe := ⟨fun _ _ h h' => Nat.le_antisymm h' h⟩

/-- Python `sorted(values, reverse=True)` on rank values. -/
def sortDesc (l : List Nat) : List Nat := l.insertionSort natGe

/-- Descending lexicographic order on `(count, rank)` pairs, used for
Python's `sorted(((cnt, r) ...), reverse=True)` (`Poker_core.py` line 115). -/
def pairGe (a b : Nat × Nat) : Prop := b.1 < a.1 ∨ (b.1 = a.1 ∧ b.2 ≤ a.2)

instance : DecidableRel pairGe := fun a b => by unfold pairGe; infer_instance

instance : IsTotal (Nat × Nat) pairGe := by
  constructor
  intro a b
  unfold pairGe
  omega

instance : IsTrans (Nat × Nat) pairGe := by
  constructor
  intro a b c h h'
  unfold pairGe at *
  omega

/-- Python `sorted(pairs, reverse=True)` on `(count, rank)` pairs. -/
def sortPairsDesc (l : List (Nat × Nat)) : List (Nat × Nat) :=
  l.insertionSort pairGe

/-- Python `<` on lists of ints (lexicographic, a strict prefix is
smaller), as used by tuple comparison on tiebreak lists. -/
def listLtB : List Nat → List Nat → Bool
  | _, [] => false
  | [], _ :: _ => true
  | a :: as, b :: bs => decide (a < b) || (a == b && listLtB as bs)

/-- Python `<` on `(rank, tiebreak)` tuples: compare the category first,
then the tiebreak list lexicographically.  `pyLtB x y = true` iff the
Python comparison `x < y` (equivalently `y > x`) holds. -/
def pyLtB (x y : Nat × List Nat) : Bool :=
  decide (x.1 < y.1) || (x.1 == y.1 && listLtB x.2 y.2)

-- `HandRank` (`Poker_core.py` lines 47-56), an `IntEnum`, embedded as the
-- underlying integer values.
def HIGH_CARD : Nat := 0
def ONE_PAIR : Nat := 1
def TWO_PAIR : Nat := 2
def THREE_OF_A_KIND : Nat := 3
def STRAIGHT : Nat := 4
def FLUSH : Nat := 5
def FULL_HOUSE : Nat := 6
def FOUR_OF_A_KIND : Nat := 7
def STRAIGHT_FLUSH : Nat := 8

/-- Python `max(...)` over a nonempty list of rank values (0 default is
never reached on the call sites below, which always filter a 5-card list
leaving at least one element). -/
def listMax (l : List Nat) : Nat := l.foldr max 0

/-- Python `_is_consecutive` (`Poker_core.py` lines 72-73):
`all(values[i] - 1 == values[i + 1] ...)`.  The subtraction is over
Python ints, hence the cast to `Int`. -/
def isConsecutive : List Nat → Bool
  | a :: b :: rest => ((a : Int) - 1 == (b : Int)) && isConsecutive (b :: rest)
  | _ => true

/-- The body of `evaluate_five` (`Poker_core.py` lines 97-141) after its
first two lines: everything from the straight check on is a function of
`ranks` (the descending-sorted rank values) and `is_flush` alone, which
this definition makes explicit.  `rset` is `sorted(set(ranks),
reverse=True)` (ranks are sorted, so `List.dedup` lists the distinct
values in the same order Python's first-occurrence dict/set iteration
does); `groups` is `sorted(((cnt, r) for r, cnt in counts.items()),
reverse=True)`. -/
def evalRanksFlush (ranks : List Nat) (is_flush : Bool) : Nat × List Nat :=
  let rset := sortDesc ranks.dedup
  let straight_hi : Option Nat :=
    if rset.length == 5 then
      if isConsecutive rset then some (rset.headD 0)
      else if rset == [12, 3, 2, 1, 0] then some 3
      else none
    else none
  let groups := sortPairsDesc (ranks.dedup.map (fun r => (ranks.count r, r)))
  let g0 := groups.headD (0, 0)
  let g1 := groups.getD 1 (0, 0)
  if straight_hi.isSome && is_flush then (STRAIGHT_FLUSH, [straight_hi.getD 0])
  else if g0.1 == 4 then
    let four := g0.2
    let kicker := listMax (ranks.filter (fun r => r != four))
    (FOUR_OF_A_KIND, [four, kicker])
  else if g0.1 == 3 && g1.1 == 2 then (FULL_HOUSE, [g0.2, g1.2])
  else if is_flush then (FLUSH, ranks)
  else if straight_hi.isSome then (STRAIGHT, [straight_hi.getD 0])
  else if g0.1 == 3 then
    let trips := g0.2
    let kickers := sortDesc (ranks.filter (fun r => r != trips))
    (THREE_OF_A_KIND, trips :: kickers.take 2)
  else if g0.1 == 2 && g1.1 == 2 then
    let pair_hi := max g0.2 g1.2
    let pair_lo := min g0.2 g1.2
    let kicker := listMax (ranks.filter (fun r => r != pair_hi && r != pair_lo))
    (TWO_PAIR, [pair_hi, pair_lo, kicker])
  else if g0.1 == 2 then
    let pair := g0.2
    let kickers := ranks.filter (fun r => r != pair)
    (ONE_PAIR, pair :: kickers.take 3)
  else (HIGH_CARD, ranks.take 5)

/-- Python `evaluate_five` (`Poker_core.py` lines 97-141): `ranks` is
`sorted([c.rank_value for c in cards5], reverse=True)` and `is_flush` is
`len({c.suit for c in cards5}) == 1` (the distinct-suit count); the rest
of the body is `evalRanksFlush`. -/
def evaluate_five (cards5 : List Card) : Nat × List Nat :=
  evalRanksFlush (sortDesc (cards5.map Card.rankv))
    ((cards5.map Card.suit).dedup.length == 1)

/-- `itertools.combinations(cards, n)`: every length-`n` subsequence, in
lexicographic order of positions, exactly as the Python iterator yields
them. -/
def combinations : Nat → List α → List (List α)
  | 0, _ => [[]]
  | _ + 1, [] => []
  | n + 1, x :: xs => (combinations n xs).map (x :: ·) ++ combinations (n + 1) xs

/-- Python `sorted(best_combo, key=lambda c: c.rank_value, reverse=True)`. -/
def sortCardsDesc (l : List Card) : List Card :=
  l.insertionSort (fun c d => d.rankv ≤ c.rankv)

/-- The loop body of `evaluate_best_7` (`Poker_core.py` lines 148-152):
keep the first maximum of `evaluate_five` under the tuple order
(`val > best` is `pyLtB best val`). -/
def bestStep (best : Option ((Nat × List Nat) × List Card)) (combo : List Card) :
    Option ((Nat × List Nat) × List Card) :=
  let val := evaluate_five combo
  match best with
  | none => some (val, combo)
  | some (b, bc) => if pyLtB b val then some (val, combo) else some (b, bc)

/-- Python `evaluate_best_7` (`Poker_core.py` lines 144-154): fold
`bestStep` over all 5-card combinations.  With fewer than 5 cards the
loop body never runs, `best` stays `None` and the
`assert best is not None` fails; the spec names that failure
`InvalidHandSize`. -/
def evaluate_best_7 (cards : List Card) :
    Except String ((Nat × List Nat) × List Card) :=
  match (combinations 5 cards).foldl bestStep none with
  | none => .error "InvalidHandSize"
  | some (val, combo) => .ok (val, sortCardsDesc combo)

/-- Python `Deck.deal` (`Poker_core.py` lines 37-42) on the deck's card
list: raises (`InsufficientCards` in the spec's naming) when `n` exceeds
the remaining cards — the deck is then left untouched — otherwise
returns the first `n` cards and keeps the rest.  The second component is
the deck's card list after the call. -/
def deal (n : Nat) (cards : List Card) : Except String (List Card) × List Card :=
  if cards.length < n then (.error "InsufficientCards", cards)
  else (.ok (cards.take n), cards.drop n)

/-- Python `Player` dataclass (`Poker_core.py` lines 159-165). -/
structure Player where
  name : String
  stack : Int := 1000
  hole : List Card := []
  in_hand : Bool := true
  bet : Int := 0
deriving DecidableEq

instance : Inhabited Player := ⟨{ name := "" }⟩

/-- Python `Player.reset_for_hand` (`Poker_core.py` lines 167-170). -/
def reset_for_hand (p : Player) : Player :=
  { p with hole := [], in_hand := true, bet := 0 }

/-- The mutable state of `TexasHoldemGame` (`Poker_core.py` lines
173-182); the deck is its remaining card list. -/
structure Game where
  players : List Player
  small_blind : Int
  big_blind : Int
  button_index : Nat
  deck : List Card
  board : List Card
  pot : Int
deriving DecidableEq

/-- Python `TexasHoldemGame._post` (`Poker_core.py` lines 193-197): post
`min(player.stack, amount)` from the stack into the player's bet and the
pot.  Returns the updated player and pot. -/
def post (p : Player) (amount : Int) (pot : Int) : Player × Int :=
  let po := min p.stack amount
  ({ p with stack := p.stack - po, bet := p.bet + po }, pot + po)

/-- `_post` applied to the player at index `i` of the table (out-of-range
indices cannot occur on the call sites; they leave the game unchanged). -/
def postAt (g : Game) (i : Nat) (amount : Int) : Game :=
  match g.players[i]? with
  | some p =>
      let r := post p amount g.pot
      { g with players := g.players.set i r.1, pot := r.2 }
  | none => g

/-- Python `TexasHoldemGame.post_blinds` (`Poker_core.py` lines 187-191). -/
def post_blinds (g : Game) : Game :=
  let sb_idx := (g.button_index + 1) % g.players.length
  let bb_idx := (g.button_index + 2) % g.players.length
  postAt (postAt g sb_idx g.small_blind) bb_idx g.big_blind

/-- Python `TexasHoldemGame.reset_for_new_hand` (`Poker_core.py` lines
215-220).  `Deck(seed=reseed)` builds a fresh shuffled 52-card deck; the
shuffle's outcome is the explicit argument `newDeck` here (randomness is
outside the embedding). -/
def reset_for_new_hand (g : Game) (newDeck : List Card) : Game :=
  { g with deck := newDeck, board := [], pot := 0,
           players := g.players.map reset_for_hand }

/-- `enumerate(self.players)` starting at index `k`. -/
def enumIdx (k : Nat) : List Player → List (Nat × Player)
  | [] => []
  | p :: ps => (k, p) :: enumIdx (k + 1) ps

/-- The value `(rank, tiebreak)` of `evaluate_best_7(player.hole +
self.board)` as read by `showdown`; the error case (fewer than 5 cards,
where Python would raise out of `showdown`) is given a dummy value and is
excluded by hypothesis in every theorem using this. -/
def bestVal (board : List Card) (p : Player) : Nat × List Nat :=
  match evaluate_best_7 (p.hole ++ board) with
  | .ok (v, _) => v
  | .error _ => (0, [])

/-- The evaluation loop of `showdown` (`Poker_core.py` lines 224-232):
evaluate each active player's hole+board cards, propagating the failure
Python would raise when a player has fewer than 5 cards. -/
def evalsOf (board : List Card) : List (Nat × Player) → Option (List (Nat × (Nat × List Nat)))
  | [] => some []
  | (i, p) :: rest =>
      match evaluate_best_7 (p.hole ++ board) with
      | .error _ => none
      | .ok (v, _) => (evalsOf board rest).map ((i, v) :: ·)

/-- The winner-selection loop of `showdown` (`Poker_core.py` lines
237-245): keep the best `(rank, tiebreak)` tuple seen so far and the list
of indices achieving it (`t > best_tuple` starts a new list, `t ==
best_tuple` appends). -/
def scanStep (acc : Option (Nat × List Nat) × List Nat) (e : Nat × (Nat × List Nat)) :
    Option (Nat × List Nat) × List Nat :=
  match acc with
  | (none, _) => (some e.2, [e.1])
  | (some b, ws) =>
      if pyLtB b e.2 then (some e.2, [e.1])
      else if e.2 == b then (some b, ws ++ [e.1])
      else (some b, ws)

/-- `self.players[i].stack += share` for a single winner index. -/
def bumpStack (ps : List Player) (i : Nat) (share : Int) : List Player :=
  match ps[i]? with
  | some p => ps.set i { p with stack := p.stack + share }
  | none => ps

/-- Python `TexasHoldemGame.showdown` (`Poker_core.py` lines 222-252):
collect the `in_hand` players, evaluate them, select the maximal
evaluations, and pay `self.pot // len(winners)` to each winner
(`if winners:` guards the empty case).  Returns the winner indices and
the updated player list; `none` when an evaluation would raise. -/
def showdown (g : Game) : Option (List Nat × List Player) :=
  let active := (enumIdx 0 g.players).filter (fun ip => ip.2.in_hand)
  match evalsOf g.board active with
  | none => none
  | some evals =>
      let winners := (evals.foldl scanStep (none, [])).2
      let ps' :=
        if winners.isEmpty then g.players
        else
          let share := Int.fdiv g.pot (winners.length : Int)
          winners.foldl (fun ps i => bumpStack ps i share) g.players
      some (winners, ps')

/-- A decision as produced by the `action_fn` callback of
`betting_round` (`Poker_game.py`): the `(action, amount)` pair, the
amount being carried only by `raise`. -/
inductive Act where
  | fold
  | check
  | call
  | raiseA (amt : Int)
  | allin
deriving DecidableEq

/-- The decision source: Python `action_fn(player, current_bet)`. -/
abbrev ActionFn : Type := Player → Int → Act

/-- The loop state of `betting_round` (`Poker_game.py` lines 56-136):
the table's players and pot together with the local variables
`current_bet`, `to_go` and `idx`. -/
structure BetState where
  players : List Player
  pot : Int
  current_bet : Int
  to_go : Int
  idx : Nat
deriving DecidableEq

/-- `active_players()` (`Poker_game.py` lines 53-54), as the list of
indices of players with `p.in_hand and p.stack >= 0`. -/
def activeIdxs (ps : List Player) : List Nat :=
  ((enumIdx 0 ps).filter (fun ip => ip.2.in_hand && decide (0 ≤ ip.2.stack))).map Prod.fst

/-- The mutation of the acting player in the `raise` branch
(`Poker_game.py` lines 107-112): pay `to_call + min(amt, player.stack)`
from the stack into the bet. -/
def raiseUpdate (p : Player) (current_bet amt : Int) : Player :=
  let to_call := max 0 (current_bet - p.bet)
  let total := to_call + min amt p.stack
  { p with stack := p.stack - total, bet := p.bet + total }

/-- The whole `raise` branch (`Poker_game.py` lines 107-117) acting on
the loop state, for the player `p` sitting at index `j`: returns the new
`(current_bet, to_go, players, pot)`.  `to_go` is set to
`len(active_players()) - 1` with `active_players()` recomputed *after*
the mutation, exactly as the Python evaluates it. -/
def raiseCase (s : BetState) (j : Nat) (p : Player) (amt : Int) :
    Int × Int × List Player × Int :=
  let to_call := max 0 (s.current_bet - p.bet)
  let total := to_call + min amt p.stack
  let p' := raiseUpdate p s.current_bet amt
  let ps' := s.players.set j p'
  let cb' := if s.current_bet < p'.bet then p'.bet else s.current_bet
  (cb', ((activeIdxs ps').length : Int) - 1, ps', s.pot + total)

/-- One iteration of the `while True` loop of `betting_round`
(`Poker_game.py` lines 64-136).  `.inr (cb, ps, pot)` means the loop
`break`s / the round is over with final current bet `cb`, players `ps`
and pot `pot`; `.inl s'` is the state at the next iteration. -/
def step (af : ActionFn) (s : BetState) : BetState ⊕ (Int × List Player × Int) :=
  let act := activeIdxs s.players
  if act.length ≤ 1 then .inr (s.current_bet, s.players, s.pot)
  else
    let j := act.getD (s.idx % act.length) 0
    let p := (s.players[j]?).getD default
    let to_call := max 0 (s.current_bet - p.bet)
    if !p.in_hand || p.stack == 0 then
      -- all-in seats are skipped (lines 74-79)
      if s.to_go ≤ 0 then .inr (s.current_bet, s.players, s.pot)
      else .inl { s with idx := s.idx + 1 }
    else
      let r : Int × Int × List Player × Int :=
        match af p s.current_bet with
        | .fold =>
            (s.current_bet, s.to_go - 1,
             s.players.set j { p with in_hand := false }, s.pot)
        | .check =>
            let pay := if 0 < to_call then min to_call p.stack else 0
            (s.current_bet, s.to_go - 1,
             s.players.set j { p with stack := p.stack - pay, bet := p.bet + pay },
             s.pot + pay)
        | .call =>
            let pay := min to_call p.stack
            (s.current_bet, s.to_go - 1,
             s.players.set j { p with stack := p.stack - pay, bet := p.bet + pay },
             s.pot + pay)
        | .raiseA amt => raiseCase s j p amt
        | .allin =>
            let total := p.stack
            let p' := { p with stack := 0, bet := p.bet + total }
            let ps' := s.players.set j p'
            if s.current_bet < p'.bet then
              (p'.bet, ((activeIdxs ps').length : Int) - 1, ps', s.pot + total)
            else (s.current_bet, s.to_go - 1, ps', s.pot + total)
      -- lines 131-136: advance, and break once to_go ≤ 0
      if r.2.1 ≤ 0 then .inr (r.1, r.2.2.1, r.2.2.2)
      else .inl { players := r.2.2.1, pot := r.2.2.2, current_bet := r.1,
                  to_go := r.2.1, idx := s.idx + 1 }

/-- Run the loop for at most `fuel` iterations; `none` means the loop
was still running after `fuel` iterations. -/
def run (af : ActionFn) : Nat → BetState → Option (Int × List Player × Int)
  | 0, _ => none
  | n + 1, s =>
      match step af s with
      | .inr r => some r
      | .inl s' => run af n s'

/-- Python `betting_round(game, current_bet, action_fn)`
(`Poker_game.py` lines 29-138): the entry check (lines 56-58) returns
immediately when at most one player is active, otherwise the loop starts
with `to_go = len(active_players())` and `idx = 0`.  The result is
`(current_bet, players, pot)`; `none` means more than `fuel` loop
iterations ran. -/
def betting_round (af : ActionFn) (fuel : Nat) (g : Game) (current_bet : Int) :
    Option (Int × List Player × Int) :=
  let act := activeIdxs g.players
  if act.length ≤ 1 then some (current_bet, g.players, g.pot)
  else run af fuel
    { players := g.players, pot := g.pot, current_bet := current_bet,
      to_go := (act.length : Int), idx := 0 }

/-! ## Order lemmas for the Python tuple comparison -/

theorem listLtB_irrefl (l : List Nat) : listLtB l l = false := by
  induction l with
  | nil => rfl
  | cons a as ih => simp [listLtB, ih]

theorem listLtB_trans :
    ∀ (a b c : List Nat), listLtB a b = true → listLtB b c = true →
      listLtB a c = true := by
  intro a
  induction a with
  | nil =>
      intro b c hab hbc
      cases b <;> cases c <;> simp_all [listLtB]
  | cons x xs ih =>
      intro b c hab hbc
      cases b with
      | nil => simp [listLtB] at hab
      | cons y ys =>
          cases c with
          | nil => simp [listLtB] at hbc
          | cons z zs =>
              simp only [listLtB, Bool.or_eq_true, decide_eq_true_eq,
                Bool.and_eq_true, beq_iff_eq] at hab hbc ⊢
              rcases hab with h | ⟨hxy, hr⟩ <;> rcases hbc with h' | ⟨hyz, hr'⟩
              · exact Or.inl (by omega)
              · exact Or.inl (by omega)
              · exact Or.inl (by omega)
              · exact Or.inr ⟨by omega, ih ys zs hr hr'⟩

theorem listLtB_tricho :
    ∀ (a b : List Nat), listLtB a b = true ∨ a = b ∨ listLtB b a = true := by
  intro a
  induction a with
  | nil =>
      intro b
      cases b <;> simp [listLtB]
  | cons x xs ih =>
      intro b
      cases b with
      | nil => simp [listLtB]
      | cons y ys =>
          rcases Nat.lt_trichotomy x y with h | h | h
          · exact Or.inl (by simp [listLtB, h])
          · subst h
            rcases ih ys with h' | h' | h'
            · exact Or.inl (by simp [listLtB, h'])
            · exact Or.inr (Or.inl (by rw [h']))
            · exact Or.inr (Or.inr (by simp [listLtB, h']))
          · exact Or.inr (Or.inr (by simp [listLtB, h]))

theorem pyLtB_irrefl (x : Nat × List Nat) : pyLtB x x = false := by
  simp [pyLtB, listLtB_irrefl]

theorem pyLtB_trans {x y z : Nat × List Nat} :
    pyLtB x y = true → pyLtB y z = true → pyLtB x z = true := by
  simp only [pyLtB, Bool.or_eq_true, decide_eq_true_eq, Bool.and_eq_true,
    beq_iff_eq]
  rintro (h | ⟨h1, h2⟩) (h' | ⟨h1', h2'⟩)
  · exact Or.inl (by omega)
  · exact Or.inl (by omega)
  · exact Or.inl (by omega)
  · exact Or.inr ⟨by omega, listLtB_trans _ _ _ h2 h2'⟩

theorem pyLtB_tricho (x y : Nat × List Nat) :
    pyLtB x y = true ∨ x = y ∨ pyLtB y x = true := by
  rcases Nat.lt_trichotomy x.1 y.1 with h | h | h
  · exact Or.inl (by simp [pyLtB, h])
  · rcases listLtB_tricho x.2 y.2 with h' | h' | h'
    · exact Or.inl (by simp [pyLtB, h, h'])
    · exact Or.inr (Or.inl (Prod.ext h h'))
    · exact Or.inr (Or.inr (by simp [pyLtB, h, h']))
  · exact Or.inr (Or.inr (by simp [pyLtB, h]))

/-! ## C5: the wheel straight -/

theorem dedup_len_one_all_eq {l : List Nat} (h : l.dedup.length = 1) :
    ∀ a ∈ l, ∀ b ∈ l, a = b := by
  obtain ⟨x, hx⟩ := List.length_eq_one.mp h
  intro a ha b hb
  have ha' : a ∈ l.dedup := List.mem_dedup.mpr ha
  have hb' : b ∈ l.dedup := List.mem_dedup.mpr hb
  rw [hx] at ha' hb'
  simp only [List.mem_singleton] at ha' hb'
  rw [ha', hb']

/-- C5: any five cards with rank multiset {A,5,4,3,2} and at least two
distinct suits evaluate to a STRAIGHT with tiebreak `[3]` (the rank value
of '5'), and this evaluation is strictly below that of any five cards
with rank multiset {6,5,4,3,2} under the Python tuple order. -/
theorem wheel_straight (cs ds : List Card)
    (hr : sortDesc (cs.map Card.rankv) = [12, 3, 2, 1, 0])
    (hs : ∃ c₁ ∈ cs, ∃ c₂ ∈ cs, c₁.suit ≠ c₂.suit)
    (hr' : sortDesc (ds.map Card.rankv) = [4, 3, 2, 1, 0]) :
    evaluate_five cs = (STRAIGHT, [3]) ∧
    pyLtB (evaluate_five cs) (evaluate_five ds) = true := by
  have hflush : ((cs.map Card.suit).dedup.length == 1) = false := by
    rcases hs with ⟨c₁, h₁, c₂, h₂, hne⟩
    rw [beq_eq_false_iff_ne]
    intro hlen
    exact hne (dedup_len_one_all_eq hlen c₁.suit
      (List.mem_map_of_mem _ h₁) c₂.suit (List.mem_map_of_mem _ h₂))
  have h1 : evaluate_five cs = (STRAIGHT, [3]) := by
    rw [evaluate_five, hr, hflush]
    decide
  refine ⟨h1, ?_⟩
  have h3 : evaluate_five ds =
      evalRanksFlush [4, 3, 2, 1, 0] ((ds.map Card.suit).dedup.length == 1) := by
    rw [evaluate_five, hr']
  rw [h1, h3]
  rcases hb : ((ds.map Card.suit).dedup.length == 1) with _ | _ <;> decide

/-- Witness for C5: a concrete wheel (mixed suits) against a concrete
6-high straight. -/
theorem wheel_straight_witness :
    evaluate_five [⟨12, 0⟩, ⟨3, 1⟩, ⟨2, 0⟩, ⟨1, 0⟩, ⟨0, 0⟩] = (STRAIGHT, [3]) ∧
    pyLtB (evaluate_five [⟨12, 0⟩, ⟨3, 1⟩, ⟨2, 0⟩, ⟨1, 0⟩, ⟨0, 0⟩])
      (evaluate_five [⟨4, 0⟩, ⟨3, 1⟩, ⟨2, 0⟩, ⟨1, 0⟩, ⟨0, 0⟩]) = true :=
  wheel_straight _ _ (by decide) (by decide) (by decide)

/-! ## C8: order insensitivity of `evaluate_five` -/

/-- C8: `evaluate_five` is invariant under permutation of its input (for
five distinct cards, as the spec states it — the hypotheses `h5` and
`hnd` are in fact not needed by the proof). -/
theorem evaluate_five_perm (cs ds : List Card) (h5 : cs.length = 5)
    (hnd : cs.Nodup) (hp : cs.Perm ds) :
    evaluate_five cs = evaluate_five ds := by
  unfold evaluate_five
  have h1 : sortDesc (cs.map Card.rankv) = sortDesc (ds.map Card.rankv) := by
    apply List.eq_of_perm_of_sorted (r := natGe)
    · exact ((List.perm_insertionSort natGe _).trans
        (hp.map Card.rankv)).trans (List.perm_insertionSort natGe _).symm
    · exact List.sorted_insertionSort natGe _
    · exact List.sorted_insertionSort natGe _
  have h2 : (cs.map Card.suit).dedup.length = (ds.map Card.suit).dedup.length :=
    ((hp.map Card.suit).dedup).length_eq
  rw [h1, h2]

/-- Witness for C8: a concrete 5-card hand against a reordering of it. -/
theorem evaluate_five_perm_witness :
    evaluate_five [⟨12, 0⟩, ⟨3, 1⟩, ⟨2, 0⟩, ⟨1, 2⟩, ⟨0, 3⟩] =
    evaluate_five [⟨0, 3⟩, ⟨2, 0⟩, ⟨12, 0⟩, ⟨1, 2⟩, ⟨3, 1⟩] :=
  evaluate_five_perm _ _ (by decide) (by decide) (by decide)

/-! ## C6: `evaluate_best_7` on short and sufficient inputs -/

theorem combinations_eq_nil_iff {α : Type} (n : Nat) (l : List α) :
    combinations n l = [] ↔ l.length < n := by
  induction l generalizing n with
  | nil => cases n <;> simp [combinations]
  | cons x xs ih =>
      cases n with
      | zero => simp [combinations]
      | succ m =>
          simp only [combinations, List.append_eq_nil, List.map_eq_nil_iff,
            ih, List.length_cons]
          omega

theorem combinations_length_choose {α : Type} (n : Nat) (l : List α) :
    (combinations n l).length = l.length.choose n := by
  induction l generalizing n with
  | nil => cases n <;> simp [combinations]
  | cons x xs ih =>
      cases n with
      | zero => simp [combinations]
      | succ m =>
          simp only [combinations, List.length_append, List.length_map, ih,
            List.length_cons, Nat.choose_succ_succ]

theorem combinations_mem {α : Type} {n : Nat} {l : List α} {c : List α}
    (h : c ∈ combinations n l) : c.length = n ∧ c.Sublist l := by
  induction l generalizing n c with
  | nil =>
      cases n with
      | zero => simp only [combinations, List.mem_singleton] at h; simp [h]
      | succ m => simp [combinations] at h
  | cons x xs ih =>
      cases n with
      | zero =>
          simp only [combinations, List.mem_singleton] at h
          simp [h]
      | succ m =>
          simp only [combinations, List.mem_append, List.mem_map] at h
          rcases h with ⟨c', hc', rfl⟩ | h
          · obtain ⟨h1, h2⟩ := ih hc'
            exact ⟨by simp [h1], h2.cons₂ x⟩
          · obtain ⟨h1, h2⟩ := ih h
            exact ⟨h1, h2.cons x⟩

theorem bestFold_some (L : List (List Card)) :
    ∀ (v0 : Nat × List Nat) (c0 : List Card),
      ∃ v c, L.foldl bestStep (some (v0, c0)) = some (v, c) ∧
        ((v = v0 ∧ c = c0) ∨ ∃ cc ∈ L, c = cc ∧ evaluate_five cc = v) ∧
        pyLtB v v0 = false ∧
        ∀ cc ∈ L, pyLtB v (evaluate_five cc) = false := by
  induction L with
  | nil =>
      intro v0 c0
      exact ⟨v0, c0, rfl, Or.inl ⟨rfl, rfl⟩, pyLtB_irrefl v0, by simp⟩
  | cons x xs ih =>
      intro v0 c0
      by_cases hx : pyLtB v0 (evaluate_five x) = true
      · have hstep : (x :: xs).foldl bestStep (some (v0, c0)) =
            xs.foldl bestStep (some (evaluate_five x, x)) := by
          simp [List.foldl_cons, bestStep, hx]
        obtain ⟨v, c, heq, horig, hge, hall⟩ := ih (evaluate_five x) x
        refine ⟨v, c, hstep.trans heq, ?_, ?_, ?_⟩
        · rcases horig with ⟨hv, hc⟩ | ⟨cc, hcc, h1, h2⟩
          · exact Or.inr ⟨x, List.mem_cons_self x xs, hc, hv.symm⟩
          · exact Or.inr ⟨cc, List.mem_cons_of_mem x hcc, h1, h2⟩
        · by_contra h
          rw [Bool.not_eq_false] at h
          have := pyLtB_trans h hx
          rw [hge] at this
          exact Bool.false_ne_true this
        · intro cc hcc
          rcases List.mem_cons.mp hcc with rfl | hcc'
          · exact hge
          · exact hall cc hcc'
      · have hx' : pyLtB v0 (evaluate_five x) = false := by
          revert hx; cases pyLtB v0 (evaluate_five x) <;> simp
        have hstep : (x :: xs).foldl bestStep (some (v0, c0)) =
            xs.foldl bestStep (some (v0, c0)) := by
          simp [List.foldl_cons, bestStep, hx']
        obtain ⟨v, c, heq, horig, hge, hall⟩ := ih v0 c0
        refine ⟨v, c, hstep.trans heq, ?_, hge, ?_⟩
        · rcases horig with h | ⟨cc, hcc, h1, h2⟩
          · exact Or.inl h
          · exact Or.inr ⟨cc, List.mem_cons_of_mem x hcc, h1, h2⟩
        · intro cc hcc
          rcases List.mem_cons.mp hcc with rfl | hcc'
          · by_contra h
            rw [Bool.not_eq_false] at h
            rcases pyLtB_tricho v0 (evaluate_five cc) with h1 | h1 | h1
            · rw [hx'] at h1; exact Bool.false_ne_true h1
            · rw [← h1] at h
              rw [hge] at h
              exact Bool.false_ne_true h
            · have := pyLtB_trans h h1
              rw [hge] at this
              exact Bool.false_ne_true this
          · exact hall cc hcc'

/-- C6: `evaluate_best_7` fails with `InvalidHandSize` exactly when
fewer than 5 cards are supplied; with 5 or more it returns the maximum
of `evaluate_five` over all `C(n,5)` five-card combinations under the
lexicographic `(category, tiebreak)` order. -/
theorem evaluate_best_7_spec (cards : List Card) :
    (cards.length < 5 → evaluate_best_7 cards = .error "InvalidHandSize") ∧
    (5 ≤ cards.length →
      ∃ v b5, evaluate_best_7 cards = .ok (v, b5) ∧
        (combinations 5 cards).length = cards.length.choose 5 ∧
        (∃ c ∈ combinations 5 cards, c.length = 5 ∧ evaluate_five c = v) ∧
        ∀ c ∈ combinations 5 cards, pyLtB v (evaluate_five c) = false) := by
  constructor
  · intro hlt
    have hnil : combinations 5 cards = [] := (combinations_eq_nil_iff 5 cards).mpr hlt
    rw [evaluate_best_7, hnil]
    rfl
  · intro hge
    have hne : combinations 5 cards ≠ [] := by
      rw [Ne, combinations_eq_nil_iff]
      omega
    obtain ⟨x, xs, hx⟩ := List.exists_cons_of_ne_nil hne
    have hfold : (combinations 5 cards).foldl bestStep none =
        xs.foldl bestStep (some (evaluate_five x, x)) := by
      rw [hx]
      simp [List.foldl_cons, bestStep]
    obtain ⟨v, c, heq, horig, hge0, hall⟩ := bestFold_some xs (evaluate_five x) x
    refine ⟨v, sortCardsDesc c, ?_, combinations_length_choose 5 cards, ?_, ?_⟩
    · rw [evaluate_best_7, hfold, heq]
    · rcases horig with ⟨hv, hc⟩ | ⟨cc, hcc, h1, h2⟩
      · refine ⟨x, by rw [hx]; exact List.mem_cons_self x xs, ?_, hv.symm⟩
        have := combinations_mem (l := cards) (n := 5) (c := x)
          (by rw [hx]; exact List.mem_cons_self x xs)
        exact this.1
      · refine ⟨cc, by rw [hx]; exact List.mem_cons_of_mem x hcc, ?_, h2⟩
        have := combinations_mem (l := cards) (n := 5) (c := cc)
          (by rw [hx]; exact List.mem_cons_of_mem x hcc)
        exact this.1
    · intro cc hcc
      rw [hx] at hcc
      rcases List.mem_cons.mp hcc with rfl | hcc'
      · exact hge0
      · exact hall cc hcc'

/-- The 7 cards of the spec's quads example: pocket sevens plus a board
pairing them (rank value 5 is the rank '7'). -/
def quadsEx : List Card :=
  [⟨5, 0⟩, ⟨5, 1⟩, ⟨5, 2⟩, ⟨5, 3⟩, ⟨0, 0⟩, ⟨7, 1⟩, ⟨11, 2⟩]

/-- A 2-card input for the error case of `evaluate_best_7`. -/
def shortEx : List Card := [⟨0, 0⟩, ⟨1, 1⟩]

/-- Witness for C6: the error case on a 2-card input and the success
case on the 7 cards of the spec's quads example. -/
theorem evaluate_best_7_spec_witness :
    evaluate_best_7 shortEx = .error "InvalidHandSize" ∧
    ∃ v b5, evaluate_best_7 quadsEx = .ok (v, b5) ∧
      (combinations 5 quadsEx).length = quadsEx.length.choose 5 ∧
      (∃ c ∈ combinations 5 quadsEx, c.length = 5 ∧ evaluate_five c = v) ∧
      ∀ c ∈ combinations 5 quadsEx, pyLtB v (evaluate_five c) = false :=
  ⟨(evaluate_best_7_spec shortEx).1 (by decide),
   (evaluate_best_7_spec quadsEx).2 (by decide)⟩

/-! ## C7: `Deck.deal` -/

/-- C7: `deal n` fails with `InsufficientCards` and leaves the deck
unchanged when `n` exceeds the remaining cards; otherwise it returns
exactly the first `n` cards and removes them, the remaining length drops
by `n`, and (the deck holding no duplicates) no dealt card is still in
the deck. -/
theorem deal_spec (n : Nat) (cards : List Card) (hnd : cards.Nodup) :
    (cards.length < n → deal n cards = (.error "InsufficientCards", cards)) ∧
    (n ≤ cards.length →
      deal n cards = (.ok (cards.take n), cards.drop n) ∧
      (cards.take n).length = n ∧
      (cards.drop n).length = cards.length - n ∧
      ∀ c ∈ cards.take n, c ∉ cards.drop n) := by
  constructor
  · intro hlt
    rw [deal, if_pos hlt]
  · intro hle
    refine ⟨by rw [deal, if_neg (by omega)], ?_, cards.length_drop n, ?_⟩
    · rw [List.length_take]
      omega
    · have h := hnd
      rw [← List.take_append_drop n cards, List.nodup_append] at h
      exact fun c hc hc' => h.2.2 hc hc'

/-- A concrete 3-card deck for the `deal` witness. -/
def deckEx : List Card := [⟨0, 0⟩, ⟨1, 0⟩, ⟨2, 0⟩]

/-- Witness for C7: dealing 5 from a 3-card deck fails and leaves it
unchanged; dealing 2 removes exactly the first two cards. -/
theorem deal_spec_witness :
    deal 5 deckEx = (.error "InsufficientCards", deckEx) ∧
    (deal 2 deckEx = (.ok (deckEx.take 2), deckEx.drop 2) ∧
      (deckEx.take 2).length = 2 ∧
      (deckEx.drop 2).length = deckEx.length - 2 ∧
      ∀ c ∈ deckEx.take 2, c ∉ deckEx.drop 2) :=
  ⟨(deal_spec 5 deckEx (by decide)).1 (by decide),
   (deal_spec 2 deckEx (by decide)).2 (by decide)⟩

/-! ## C9: `reset_for_new_hand` -/

/-- C9: `reset_for_new_hand` installs the fresh deck, empties the board,
zeroes the pot, and resets every player's hole cards, `in_hand` flag and
street bet, while stacks, names, the button and the blinds are left
unchanged. -/
theorem reset_for_new_hand_spec (g : Game) (d : List Card) :
    (reset_for_new_hand g d).deck = d ∧
    (reset_for_new_hand g d).board = [] ∧
    (reset_for_new_hand g d).pot = 0 ∧
    (reset_for_new_hand g d).button_index = g.button_index ∧
    (reset_for_new_hand g d).small_blind = g.small_blind ∧
    (reset_for_new_hand g d).big_blind = g.big_blind ∧
    (reset_for_new_hand g d).players.map Player.stack =
      g.players.map Player.stack ∧
    (reset_for_new_hand g d).players.map Player.name =
      g.players.map Player.name ∧
    ∀ p ∈ (reset_for_new_hand g d).players,
      p.hole = [] ∧ p.in_hand = true ∧ p.bet = 0 := by
  refine ⟨rfl, rfl, rfl, rfl, rfl, rfl, ?_, ?_, ?_⟩
  · simp [reset_for_new_hand, reset_for_hand, List.map_map, Function.comp_def]
  · simp [reset_for_new_hand, reset_for_hand, List.map_map, Function.comp_def]
  · intro p hp
    simp only [reset_for_new_hand, List.mem_map] at hp
    obtain ⟨q, _, rfl⟩ := hp
    exact ⟨rfl, rfl, rfl⟩

/-- A concrete mid-hand game for the reset witness: nonempty board and
pot, one folded player holding cards and a live bet. -/
def gResetEx : Game :=
  { players := [{ name := "A", stack := 940, hole := [⟨3, 1⟩, ⟨7, 2⟩],
                  in_hand := false, bet := 40 },
                { name := "B", stack := 985, hole := [⟨9, 0⟩, ⟨2, 3⟩],
                  in_hand := true, bet := 15 }],
    small_blind := 10, big_blind := 20, button_index := 1,
    deck := [⟨4, 2⟩], board := [⟨0, 0⟩, ⟨5, 1⟩, ⟨12, 3⟩], pot := 55 }

/-- Witness for C9: the reset of the concrete game above. -/
theorem reset_for_new_hand_spec_witness :
    (reset_for_new_hand gResetEx deckEx).pot = 0 ∧
    (reset_for_new_hand gResetEx deckEx).players.map Player.stack =
      gResetEx.players.map Player.stack ∧
    (reset_for_new_hand gResetEx deckEx).button_index = gResetEx.button_index ∧
    ∀ p ∈ (reset_for_new_hand gResetEx deckEx).players,
      p.hole = [] ∧ p.in_hand = true ∧ p.bet = 0 := by
  obtain ⟨_, _, h3, h4, _, _, h7, _, h9⟩ := reset_for_new_hand_spec gResetEx deckEx
  exact ⟨h3, h7, h4, h9⟩

/-! ## C10: posting blinds never overdraws -/

/-- Total chips in the players' stacks. -/
def sumStacks (ps : List Player) : Int := (ps.map Player.stack).sum

theorem map_sum_set (ps : List Player) (i : Nat) (q : Player)
    (h : i < ps.length) :
    ((ps.set i q).map Player.stack).sum =
      (ps.map Player.stack).sum - (ps.get ⟨i, h⟩).stack + q.stack := by
  induction ps generalizing i with
  | nil => simp at h
  | cons p ps ih =>
      cases i with
      | zero => simp [List.set]; ring
      | succ m =>
          have hm : m < ps.length := by simpa using h
          simp only [List.set, List.map_cons, List.sum_cons, List.get_cons_succ,
            ih m hm]
          ring

theorem postAt_conserve (g : Game) (i : Nat) (amount : Int) :
    sumStacks (postAt g i amount).players + (postAt g i amount).pot =
      sumStacks g.players + g.pot := by
  unfold postAt
  cases hg : g.players[i]? with
  | none => rfl
  | some p =>
      obtain ⟨hi, hp⟩ := List.getElem?_eq_some_iff.mp hg
      have hget : g.players.get ⟨i, hi⟩ = p := hp
      simp only [post, sumStacks, map_sum_set g.players i _ hi, hget]
      ring

theorem postAt_nonneg (g : Game) (i : Nat) (amount : Int)
    (h : ∀ q ∈ g.players, 0 ≤ q.stack) :
    ∀ q ∈ (postAt g i amount).players, 0 ≤ q.stack := by
  unfold postAt
  cases hg : g.players[i]? with
  | none => exact h
  | some p =>
      intro q hq
      rcases List.mem_or_eq_of_mem_set hq with h' | rfl
      · exact h q h'
      · have := min_le_left p.stack amount
        simp only [post]
        omega

/-- C10: `_post` moves exactly `min(stack, amount)` from the stack into
the player's bet and the pot; the resulting stack is non-negative (zero
when the stack was short), the player's other fields are untouched, and
chips are conserved — in particular `post_blinds` conserves
`sum(stacks) + pot` and keeps all stacks non-negative. -/
theorem post_spec (p : Player) (amount pot : Int) (g : Game)
    (hpos : ∀ q ∈ g.players, 0 ≤ q.stack) :
    (post p amount pot).1.stack = p.stack - min p.stack amount ∧
    (post p amount pot).1.bet = p.bet + min p.stack amount ∧
    (post p amount pot).2 = pot + min p.stack amount ∧
    0 ≤ (post p amount pot).1.stack ∧
    (p.stack ≤ amount → (post p amount pot).1.stack = 0) ∧
    (post p amount pot).1.stack + (post p amount pot).2 = p.stack + pot ∧
    (post p amount pot).1.name = p.name ∧
    (post p amount pot).1.hole = p.hole ∧
    (post p amount pot).1.in_hand = p.in_hand ∧
    sumStacks (post_blinds g).players + (post_blinds g).pot =
      sumStacks g.players + g.pot ∧
    ∀ q ∈ (post_blinds g).players, 0 ≤ q.stack := by
  have hmin := min_le_left p.stack amount
  refine ⟨rfl, rfl, rfl, by simp only [post]; omega, ?_, by simp only [post]; ring,
    rfl, rfl, rfl, ?_, ?_⟩
  · intro hle
    have : min p.stack amount = p.stack := min_eq_left hle
    simp only [post, this]
    ring
  · rw [post_blinds]
    rw [postAt_conserve, postAt_conserve]
  · rw [post_blinds]
    exact postAt_nonneg _ _ _ (postAt_nonneg _ _ _ hpos)

/-- A short-stacked player for the blind-posting witness. -/
def pShortEx : Player := { name := "S", stack := 5 }

/-- A concrete 2-player table for the blind-posting witness. -/
def gBlindsEx : Game :=
  { players := [{ name := "A", stack := 1000 }, { name := "B", stack := 15 }],
    small_blind := 10, big_blind := 20, button_index := 0,
    deck := [], board := [], pot := 0 }

/-- Witness for C10: posting a 20 blind from a 5-chip stack posts all 5
chips and leaves a zero (not negative) stack; `post_blinds` on a table
with a short stack conserves chips and keeps stacks non-negative. -/
theorem post_spec_witness :
    (post pShortEx 20 0).1.stack = 0 ∧
    0 ≤ (post pShortEx 20 0).1.stack ∧
    (post pShortEx 20 0).1.stack + (post pShortEx 20 0).2 =
      pShortEx.stack + 0 ∧
    sumStacks (post_blinds gBlindsEx).players + (post_blinds gBlindsEx).pot =
      sumStacks gBlindsEx.players + gBlindsEx.pot ∧
    ∀ q ∈ (post_blinds gBlindsEx).players, 0 ≤ q.stack := by
  obtain ⟨_, _, _, h4, h5, h6, _, _, _, h10, h11⟩ :=
    post_spec pShortEx 20 0 gBlindsEx (by decide)
  exact ⟨h5 (by decide), h4, h6, h10, h11⟩

/-! ## C1: a raise can overdraw the stack -/

/-- A fresh 2-player table (stacks 40 and 1000, button on seat 1) before
blinds. -/
def gPreEx : Game :=
  { players := [{ name := "A", stack := 40 }, { name := "B", stack := 1000 }],
    small_blind := 10, big_blind := 20, button_index := 1,
    deck := [], board := [], pot := 0 }

/-- The table after `post_blinds`: A (small blind) has stack 30 and bet
10, B (big blind) has stack 980 and bet 20, pot 30. -/
def g1Ex : Game := post_blinds gPreEx

/-- Decision source for the C1 counterexample: A raises by 25 (an amount
the interactive prompt itself would accept, since `0 < 25 ≤ 30`), B
calls. -/
def af1Ex : ActionFn := fun p _ => if p.name == "A" then .raiseA 25 else .call

/-- Counterexample to C1: running `betting_round` preflop on the blinds
table with A raising 25 finishes in one action and leaves A's stack at
-5: the raise deducted `to_call + min(amt, stack) = 10 + 25 = 35` from a
30-chip stack. -/
theorem betting_round_negative_stack_cx :
    ∃ cb ps pot, betting_round af1Ex 1 g1Ex 20 = some (cb, ps, pot) ∧
      ∃ p ∈ ps, p.stack = -5 ∧ p.stack < 0 := by
  refine ⟨45, [{ name := "A", stack := -5, bet := 45 },
               { name := "B", stack := 980, bet := 20 }], 65, by decide, ?_⟩
  exact ⟨{ name := "A", stack := -5, bet := 45 }, by decide, by decide, by decide⟩

/-- C1 amended: after `raise(amount)` by a player who still owes chips,
the amount deducted is exactly `(current_bet - bet) + min(amount, stack)`
— which is *not* capped by the stack — and the resulting stack is
non-negative iff that deduction is at most the pre-action stack. -/
theorem raiseUpdate_deduction (p : Player) (cb amt : Int)
    (howe : 0 < cb - p.bet) :
    (raiseUpdate p cb amt).stack =
      p.stack - ((cb - p.bet) + min amt p.stack) ∧
    (0 ≤ (raiseUpdate p cb amt).stack ↔
      (cb - p.bet) + min amt p.stack ≤ p.stack) := by
  have hmax : max 0 (cb - p.bet) = cb - p.bet := max_eq_right (le_of_lt howe)
  simp only [raiseUpdate, hmax]
  exact ⟨by trivial, by omega⟩

/-- The small blind of `g1Ex` as it faces the raise decision. -/
def pRaiseEx : Player := { name := "A", stack := 30, bet := 10 }

/-- Witness for the amended C1 at A's actual decision point (current bet
20, raise amount 25): the deduction is 35 and indeed exceeds the 30-chip
stack, so the resulting stack is negative. -/
theorem raiseUpdate_deduction_witness :
    ((raiseUpdate pRaiseEx 20 25).stack =
      pRaiseEx.stack - ((20 - pRaiseEx.bet) + min 25 pRaiseEx.stack) ∧
     (0 ≤ (raiseUpdate pRaiseEx 20 25).stack ↔
      (20 - pRaiseEx.bet) + min 25 pRaiseEx.stack ≤ pRaiseEx.stack)) ∧
    (raiseUpdate pRaiseEx 20 25).stack < 0 :=
  ⟨raiseUpdate_deduction pRaiseEx 20 25 (by decide), by decide⟩

/-! ## C2: `betting_round` can fail to terminate -/

/-- A postflop 2-player table: stacks 50 and 100, no outstanding bets. -/
def g2Ex : Game :=
  { players := [{ name := "A", stack := 50 }, { name := "B", stack := 100 }],
    small_blind := 10, big_blind := 20, button_index := 0,
    deck := [], board := [], pot := 0 }

/-- Decision source for C2: every player pushes all-in. -/
def af2Ex : ActionFn := fun _ _ => .allin

/-- The loop state after both all-ins: both players have stack 0 and are
still `in_hand`, `to_go` is stuck at 1, and only `idx` keeps growing. -/
def spinEx (k : Nat) : BetState :=
  { players := [{ name := "A", stack := 0, bet := 50 },
                { name := "B", stack := 0, bet := 100 }],
    pot := 150, current_bet := 100, to_go := 1, idx := k }

/-- From a spin state the loop only skips the all-in seat and advances
`idx`: `to_go` is never decremented, so the state spins forever. -/
theorem step_spinEx (k : Nat) :
    step af2Ex (spinEx k) = .inl (spinEx (k + 1)) := by
  rcases Nat.mod_two_eq_zero_or_one k with h | h <;>
    simp [step, spinEx, activeIdxs, enumIdx, af2Ex, h]

theorem run_spinEx : ∀ (n k : Nat), run af2Ex n (spinEx k) = none := by
  intro n
  induction n with
  | zero => intro k; rfl
  | succ m ih =>
      intro k
      simp only [run, step_spinEx k]
      exact ih (k + 1)

/-- The loop state `betting_round` starts from on `g2Ex`. -/
def sInitEx : BetState :=
  { players := [{ name := "A", stack := 50 }, { name := "B", stack := 100 }],
    pot := 0, current_bet := 0, to_go := 2, idx := 0 }

/-- The loop state after A's all-in. -/
def s1Ex : BetState :=
  { players := [{ name := "A", stack := 0, bet := 50 },
                { name := "B", stack := 100 }],
    pot := 50, current_bet := 50, to_go := 1, idx := 1 }

/-- C2 (refuted): on the concrete table `g2Ex`, with every seat pushing
all-in, `betting_round` never terminates — no amount of fuel makes the
loop reach a `break`.  After the second all-in both remaining `in_hand`
players have stack 0, yet `to_go` is 1 and the skip branch never
decrements it. -/
theorem betting_round_allin_diverges :
    ∀ n, betting_round af2Ex n g2Ex 0 = none := by
  intro n
  match n with
  | 0 => rfl
  | 1 => rfl
  | m + 2 =>
      have hb : betting_round af2Ex (m + 2) g2Ex 0 =
          run af2Ex (m + 2) sInitEx := rfl
      have h0 : step af2Ex sInitEx = .inl s1Ex := by decide
      have h1 : step af2Ex s1Ex = .inl (spinEx 2) := by decide
      have key : run af2Ex (m + 1 + 1) sInitEx = run af2Ex m (spinEx 2) := by
        simp only [run, h0, h1]
      rw [hb, show m + 2 = m + 1 + 1 from rfl, key]
      exact run_spinEx m 2

/-! ## C3: a call-sized raise still resets `to_go` -/

/-- A postflop 3-player table, stacks 100 each, no outstanding bets. -/
def g3Ex : Game :=
  { players := [{ name := "X", stack := 100 }, { name := "Y", stack := 100 },
                { name := "Z", stack := 100 }],
    small_blind := 10, big_blind := 20, button_index := 0,
    deck := [], board := [], pot := 0 }

/-- Decision source for C3: X and Y check, Z plays `raise(0)` — a raise
whose resulting bet does not exceed the current bet. -/
def af3Ex : ActionFn := fun p _ => if p.name == "Z" then .raiseA 0 else .check

/-- The state `betting_round af3Ex _ g3Ex 0` starts the loop from. -/
def s3InitEx : BetState :=
  { players := [{ name := "X", stack := 100 }, { name := "Y", stack := 100 },
                { name := "Z", stack := 100 }],
    pot := 0, current_bet := 0, to_go := 3, idx := 0 }

/-- Counterexample to C3: after X and Y check, `to_go` is 1 and Z plays
`raise(0)`, whose resulting bet (0) does not exceed the current bet (0).
The claim says this is treated as a call — `to_go` drops to 0 and the
street closes after Z's action — but the code resets `to_go` to
`len(active_players()) - 1 = 2`, so the loop keeps running: with fuel
for exactly the three actions the claim allows, `betting_round` has not
returned. -/
theorem raise_resets_to_go_cx :
    ∃ s₁ s₂ s₃,
      step af3Ex s3InitEx = .inl s₁ ∧
      step af3Ex s₁ = .inl s₂ ∧
      s₂.to_go = 1 ∧ s₂.current_bet = 0 ∧
      step af3Ex s₂ = .inl s₃ ∧
      (∃ p, s₃.players[2]? = some p ∧ p.bet ≤ s₂.current_bet) ∧
      s₃.to_go = 2 ∧ ¬ s₃.to_go = s₂.to_go - 1 ∧
      betting_round af3Ex 3 g3Ex 0 = none := by
  refine ⟨{ players := s3InitEx.players, pot := 0, current_bet := 0,
            to_go := 2, idx := 1 },
          { players := s3InitEx.players, pot := 0, current_bet := 0,
            to_go := 1, idx := 2 },
          { players := s3InitEx.players, pot := 0, current_bet := 0,
            to_go := 2, idx := 3 }, ?_⟩
  refine ⟨by decide, by decide, by decide, by decide, by decide, ?_, by decide,
    by decide, by decide⟩
  exact ⟨{ name := "Z", stack := 100 }, by decide, by decide⟩

/-- C3 amended: when a seat plays `raise(amount)` and the resulting bet
does not exceed `current_bet`, the current bet is indeed left unchanged,
but `to_go` is *not* decremented: the raise branch always resets it to
`len(active_players()) - 1` (recomputed after the mutation), so whenever
that reset value differs from `to_go - 1` the claimed decrement is
falsified. -/
theorem raiseCase_call_like (s : BetState) (j : Nat) (p : Player) (amt : Int)
    (hle : (raiseUpdate p s.current_bet amt).bet ≤ s.current_bet) :
    (raiseCase s j p amt).1 = s.current_bet ∧
    (raiseCase s j p amt).2.1 =
      ((activeIdxs (s.players.set j (raiseUpdate p s.current_bet amt))).length : Int)
        - 1 ∧
    (s.to_go ≠
        ((activeIdxs (s.players.set j (raiseUpdate p s.current_bet amt))).length : Int) →
      (raiseCase s j p amt).2.1 ≠ s.to_go - 1) := by
  refine ⟨?_, rfl, ?_⟩
  · simp only [raiseCase]
    rw [if_neg (by omega)]
  · intro hne
    simp only [raiseCase]
    omega

/-- Z's seat state at its decision point in the C3 counterexample. -/
def pZEx : Player := { name := "Z", stack := 100 }

/-- The loop state at Z's decision point in the C3 counterexample. -/
def s3MidEx : BetState :=
  { players := [{ name := "X", stack := 100 }, { name := "Y", stack := 100 },
                { name := "Z", stack := 100 }],
    pot := 0, current_bet := 0, to_go := 1, idx := 2 }

/-- Witness for the amended C3 at Z's decision point: the current bet
stays 0 but `to_go` becomes 2 (three active seats minus one), not
`to_go - 1 = 0`. -/
theorem raiseCase_call_like_witness :
    (raiseCase s3MidEx 2 pZEx 0).1 = s3MidEx.current_bet ∧
    (raiseCase s3MidEx 2 pZEx 0).2.1 =
      ((activeIdxs (s3MidEx.players.set 2 (raiseUpdate pZEx s3MidEx.current_bet 0))).length : Int)
        - 1 ∧
    (raiseCase s3MidEx 2 pZEx 0).2.1 ≠ s3MidEx.to_go - 1 := by
  obtain ⟨h1, h2, h3⟩ := raiseCase_call_like s3MidEx 2 pZEx 0 (by decide)
  exact ⟨h1, h2, h3 (by decide)⟩

/-! ## C4: showdown — helper lemmas -/

theorem enumIdx_mem (ps : List Player) :
    ∀ (k i : Nat) (p : Player),
      (i, p) ∈ enumIdx k ps ↔ ∃ j, i = k + j ∧ ps[j]? = some p := by
  induction ps with
  | nil => intro k i p; simp [enumIdx]
  | cons q qs ih =>
      intro k i p
      simp only [enumIdx, List.mem_cons, Prod.mk.injEq, ih (k + 1)]
      constructor
      · rintro (⟨rfl, rfl⟩ | ⟨j, rfl, hj⟩)
        · exact ⟨0, by omega, by simp⟩
        · exact ⟨j + 1, by omega, by simpa using hj⟩
      · rintro ⟨j, rfl, hj⟩
        cases j with
        | zero =>
            left
            simp only [List.getElem?_cons_zero, Option.some.injEq] at hj
            exact ⟨by omega, hj.symm⟩
        | succ m =>
            right
            exact ⟨m, by omega, by simpa using hj⟩

theorem enumIdx_fst_lt (ps : List Player) :
    ∀ (k : Nat), ∀ ip ∈ enumIdx k ps, k ≤ ip.1 := by
  induction ps with
  | nil => intro k ip h; simp [enumIdx] at h
  | cons q qs ih =>
      intro k ip h
      rcases List.mem_cons.mp h with rfl | h'
      · exact Nat.le_refl k
      · exact Nat.le_of_succ_le (ih (k + 1) ip h')

theorem enumIdx_pairwise (ps : List Player) :
    ∀ (k : Nat), (enumIdx k ps).Pairwise (fun a b => a.1 < b.1) := by
  induction ps with
  | nil => intro k; exact List.Pairwise.nil
  | cons q qs ih =>
      intro k
      refine List.Pairwise.cons ?_ (ih (k + 1))
      intro ip hip
      exact Nat.lt_of_lt_of_le (Nat.lt_succ_self k) (enumIdx_fst_lt qs (k + 1) ip hip)

/-- If at least 5 cards are supplied, `evaluate_best_7` succeeds. -/
theorem evaluate_best_7_isOk (cards : List Card) (h : 5 ≤ cards.length) :
    ∃ v b5, evaluate_best_7 cards = .ok (v, b5) := by
  have hne : combinations 5 cards ≠ [] := by
    rw [Ne, combinations_eq_nil_iff]
    omega
  obtain ⟨x, xs, hx⟩ := List.exists_cons_of_ne_nil hne
  have hfold : (combinations 5 cards).foldl bestStep none =
      xs.foldl bestStep (some (evaluate_five x, x)) := by
    rw [hx]
    simp [List.foldl_cons, bestStep]
  obtain ⟨v, c, heq, -, -, -⟩ := bestFold_some xs (evaluate_five x) x
  exact ⟨v, sortCardsDesc c, by rw [evaluate_best_7, hfold, heq]⟩

theorem evalsOf_eq (board : List Card) (L : List (Nat × Player))
    (h : ∀ ip ∈ L, 5 ≤ (ip.2.hole ++ board).length) :
    evalsOf board L = some (L.map (fun ip => (ip.1, bestVal board ip.2))) := by
  induction L with
  | nil => rfl
  | cons ip rest ih =>
      obtain ⟨i, p⟩ := ip
      obtain ⟨v, b5, heq⟩ :=
        evaluate_best_7_isOk (p.hole ++ board) (h (i, p) (List.mem_cons_self _ _))
      have hbv : bestVal board p = v := by rw [bestVal, heq]
      rw [evalsOf, heq, ih (fun q hq => h q (List.mem_cons_of_mem _ hq))]
      simp [hbv]

theorem scan_go (E : List (Nat × (Nat × List Nat))) :
    ∀ (b0 : Nat × List Nat) (ws0 : List Nat),
      ∃ bv, E.foldl scanStep (some b0, ws0) =
          (some bv,
           (if bv = b0 then ws0 else []) ++
             (E.filter (fun e => e.2 == bv)).map Prod.fst) ∧
        pyLtB bv b0 = false ∧
        (∀ e ∈ E, pyLtB bv e.2 = false) ∧
        (bv = b0 ∨ ∃ e ∈ E, e.2 = bv) := by
  induction E with
  | nil =>
      intro b0 ws0
      exact ⟨b0, by simp, pyLtB_irrefl b0, by simp, Or.inl rfl⟩
  | cons e es ih =>
      intro b0 ws0
      by_cases hA : pyLtB b0 e.2 = true
      · have hstep : (e :: es).foldl scanStep (some b0, ws0) =
            es.foldl scanStep (some e.2, [e.1]) := by
          simp [List.foldl_cons, scanStep, hA]
        obtain ⟨bv, heq, hb, hall, horig⟩ := ih e.2 [e.1]
        have hbne : bv ≠ b0 := by
          rintro rfl
          rw [hb] at hA
          exact Bool.false_ne_true hA
        have hbv0 : pyLtB bv b0 = false := by
          by_contra hcon
          rw [Bool.not_eq_false] at hcon
          have := pyLtB_trans hcon hA
          rw [hb] at this
          exact Bool.false_ne_true this
        refine ⟨bv, ?_, hbv0, ?_, ?_⟩
        · rw [hstep, heq, if_neg hbne]
          by_cases hbe : bv = e.2
          · simp [List.filter_cons, hbe]
          · have : (e.2 == bv) = false := by
              rw [beq_eq_false_iff_ne]
              exact fun hc => hbe hc.symm
            simp [List.filter_cons, this, if_neg hbe]
        · intro e' he'
          rcases List.mem_cons.mp he' with rfl | he''
          · exact hb
          · exact hall e' he''
        · rcases horig with rfl | ⟨e', he', hv⟩
          · exact Or.inr ⟨e, List.mem_cons_self _ _, rfl⟩
          · exact Or.inr ⟨e', List.mem_cons_of_mem _ he', hv⟩
      · have hA' : pyLtB b0 e.2 = false := by
          revert hA; cases pyLtB b0 e.2 <;> simp
        by_cases hB : e.2 = b0
        · have hstep : (e :: es).foldl scanStep (some b0, ws0) =
              es.foldl scanStep (some b0, ws0 ++ [e.1]) := by
            simp [List.foldl_cons, scanStep, hA', hB, pyLtB_irrefl]
          obtain ⟨bv, heq, hb, hall, horig⟩ := ih b0 (ws0 ++ [e.1])
          refine ⟨bv, ?_, hb, ?_, ?_⟩
          · rw [hstep, heq]
            by_cases hbe : bv = b0
            · have : (e.2 == bv) = true := by rw [beq_iff_eq, hB, hbe]
              simp [List.filter_cons, this, if_pos hbe]
            · have : (e.2 == bv) = false := by
                rw [beq_eq_false_iff_ne, hB]
                exact fun hc => hbe hc.symm
              simp [List.filter_cons, this, if_neg hbe]
          · intro e' he'
            rcases List.mem_cons.mp he' with rfl | he''
            · rw [hB]; exact hb
            · exact hall e' he''
          · rcases horig with rfl | ⟨e', he', hv⟩
            · exact Or.inl rfl
            · exact Or.inr ⟨e', List.mem_cons_of_mem _ he', hv⟩
        · have hstep : (e :: es).foldl scanStep (some b0, ws0) =
              es.foldl scanStep (some b0, ws0) := by
            have : (e.2 == b0) = false := beq_eq_false_iff_ne.mpr hB
            simp [List.foldl_cons, scanStep, hA', this]
          obtain ⟨bv, heq, hb, hall, horig⟩ := ih b0 ws0
          have h20 : pyLtB e.2 b0 = true := by
            rcases pyLtB_tricho b0 e.2 with h | h | h
            · rw [hA'] at h; exact absurd h Bool.false_ne_true
            · exact absurd h.symm hB
            · exact h
          have hbe : e.2 ≠ bv := by
            rintro rfl
            rw [hb] at h20
            exact Bool.false_ne_true h20
          refine ⟨bv, ?_, hb, ?_, ?_⟩
          · rw [hstep, heq]
            have : (e.2 == bv) = false := beq_eq_false_iff_ne.mpr hbe
            simp [List.filter_cons, this]
          · intro e' he'
            rcases List.mem_cons.mp he' with rfl | he''
            · by_contra hcon
              rw [Bool.not_eq_false] at hcon
              have := pyLtB_trans hcon h20
              rw [hb] at this
              exact Bool.false_ne_true this
            · exact hall e' he''
          · rcases horig with rfl | ⟨e', he', hv⟩
            · exact Or.inl rfl
            · exact Or.inr ⟨e', List.mem_cons_of_mem _ he', hv⟩

theorem scan_top (E : List (Nat × (Nat × List Nat))) (hne : E ≠ []) :
    ∃ bv, E.foldl scanStep (none, []) =
        (some bv, (E.filter (fun e => e.2 == bv)).map Prod.fst) ∧
      (∀ e ∈ E, pyLtB bv e.2 = false) ∧ (∃ e ∈ E, e.2 = bv) := by
  obtain ⟨e, es, rfl⟩ := List.exists_cons_of_ne_nil hne
  have hstep : (e :: es).foldl scanStep (none, []) =
      es.foldl scanStep (some e.2, [e.1]) := by
    simp [List.foldl_cons, scanStep]
  obtain ⟨bv, heq, hb, hall, horig⟩ := scan_go es e.2 [e.1]
  refine ⟨bv, ?_, ?_, ?_⟩
  · rw [hstep, heq]
    by_cases hbe : bv = e.2
    · simp [List.filter_cons, hbe]
    · have : (e.2 == bv) = false := by
        rw [beq_eq_false_iff_ne]
        exact fun hc => hbe hc.symm
      simp [List.filter_cons, this, if_neg hbe]
  · intro e' he'
    rcases List.mem_cons.mp he' with rfl | he''
    · exact hb
    · exact hall e' he''
  · rcases horig with rfl | ⟨e', he', hv⟩
    · exact ⟨e, List.mem_cons_self _ _, rfl⟩
    · exact ⟨e', List.mem_cons_of_mem _ he', hv⟩

theorem bumpStack_length (ps : List Player) (w : Nat) (share : Int) :
    (bumpStack ps w share).length = ps.length := by
  rw [bumpStack]
  cases ps[w]? with
  | none => rfl
  | some p => exact ps.length_set w _

theorem bumpStack_getElem? (ps : List Player) (w : Nat) (share : Int) (i : Nat) :
    (bumpStack ps w share)[i]? =
      if i = w then (ps[w]?).map (fun p => { p with stack := p.stack + share })
      else ps[i]? := by
  rw [bumpStack]
  cases hw : ps[w]? with
  | none =>
      by_cases hiw : i = w
      · subst hiw; simp [hw]
      · simp [hiw]
  | some p =>
      by_cases hiw : i = w
      · subst hiw
        have hlt : i < ps.length := (List.getElem?_eq_some_iff.mp hw).1
        simp [List.getElem?_set_self hlt, hw]
      · simp [List.getElem?_set_ne (fun h => hiw h.symm), hiw]

theorem bumpFold_length (ws : List Nat) :
    ∀ (ps : List Player) (share : Int),
      (ws.foldl (fun a j => bumpStack a j share) ps).length = ps.length := by
  induction ws with
  | nil => intro ps share; rfl
  | cons w ws' ih =>
      intro ps share
      rw [List.foldl_cons, ih, bumpStack_length]

theorem bumpFold_getElem? (ws : List Nat) :
    ∀ (ps : List Player) (share : Int), ws.Nodup →
      ∀ (i : Nat) (p : Player), ps[i]? = some p →
        (ws.foldl (fun a j => bumpStack a j share) ps)[i]? =
          some (if i ∈ ws then { p with stack := p.stack + share } else p) := by
  induction ws with
  | nil =>
      intro ps share _ i p hp
      simpa using hp
  | cons w ws' ih =>
      intro ps share hnd i p hp
      obtain ⟨hwn, hnd'⟩ := List.nodup_cons.mp hnd
      rw [List.foldl_cons]
      by_cases hiw : i = w
      · subst hiw
        have hp1 : (bumpStack ps i share)[i]? =
            some { p with stack := p.stack + share } := by
          rw [bumpStack_getElem?, if_pos rfl, hp]
          rfl
        have := ih (bumpStack ps i share) share hnd' i _ hp1
        rw [this, if_neg (fun h => hwn h), if_pos (List.mem_cons_self _ _)]
      · have hp1 : (bumpStack ps w share)[i]? = some p := by
          rw [bumpStack_getElem?, if_neg hiw, hp]
        have := ih (bumpStack ps w share) share hnd' i p hp1
        rw [this]
        by_cases hmem : i ∈ ws'
        · rw [if_pos hmem, if_pos (List.mem_cons_of_mem _ hmem)]
        · rw [if_neg hmem,
            if_neg (fun h => (List.mem_cons.mp h).elim hiw hmem)]

/-- C4: `showdown` selects exactly the `in_hand` players whose
`(category, tiebreak)` evaluation over hole+board is maximal, pays each
winner exactly `pot // len(winners)` (Python floor division), and
changes nothing else about any player. -/
theorem showdown_spec (g : Game)
    (h7 : ∀ p ∈ g.players, p.in_hand = true → 5 ≤ (p.hole ++ g.board).length) :
    ∃ ws ps', showdown g = some (ws, ps') ∧
      ws.Nodup ∧
      (∀ i : Nat, i ∈ ws ↔
        ∃ p, g.players[i]? = some p ∧ p.in_hand = true ∧
          ∀ (j : Nat) (q : Player), g.players[j]? = some q → q.in_hand = true →
            pyLtB (bestVal g.board p) (bestVal g.board q) = false) ∧
      ps'.length = g.players.length ∧
      ∀ (i : Nat) (p : Player), g.players[i]? = some p →
        ps'[i]? = some (if i ∈ ws
          then { p with stack := p.stack + Int.fdiv g.pot (ws.length : Int) }
          else p) := by
  classical
  set active := (enumIdx 0 g.players).filter (fun ip => ip.2.in_hand)
    with hactive_def
  have hactive_mem : ∀ (i : Nat) (p : Player),
      (i, p) ∈ active ↔ g.players[i]? = some p ∧ p.in_hand = true := by
    intro i p
    rw [hactive_def, List.mem_filter, enumIdx_mem g.players 0 i p]
    constructor
    · rintro ⟨⟨j, hij, hj⟩, hin⟩
      exact ⟨by rwa [show i = j by omega], hin⟩
    · rintro ⟨hp, hin⟩
      exact ⟨⟨i, by omega, hp⟩, hin⟩
  set E := active.map (fun ip => (ip.1, bestVal g.board ip.2)) with hE_def
  have hE_mem : ∀ (i : Nat) (v : Nat × List Nat),
      (i, v) ∈ E ↔ ∃ p, g.players[i]? = some p ∧ p.in_hand = true ∧
        bestVal g.board p = v := by
    intro i v
    rw [hE_def, List.mem_map]
    constructor
    · rintro ⟨⟨i', p⟩, hmem, heq⟩
      simp only [Prod.mk.injEq] at heq
      obtain ⟨rfl, hv⟩ := heq
      obtain ⟨hp, hin⟩ := (hactive_mem _ _).mp hmem
      exact ⟨p, hp, hin, hv⟩
    · rintro ⟨p, hp, hin, hv⟩
      exact ⟨(i, p), (hactive_mem i p).mpr ⟨hp, hin⟩, by rw [hv]⟩
  have hEvals : evalsOf g.board active = some E := by
    apply evalsOf_eq
    intro ip hip
    obtain ⟨hp, hin⟩ := (hactive_mem ip.1 ip.2).mp hip
    exact h7 ip.2 (List.getElem?_mem hp) hin
  have hfst_nodup : ∀ (l : List Nat),
      List.Sublist l (E.map Prod.fst) → l.Nodup := by
    intro l hsub
    have h1 : List.Sublist (E.map Prod.fst)
        ((enumIdx 0 g.players).map Prod.fst) := by
      rw [hE_def, List.map_map]
      have heq : (Prod.fst ∘ fun ip : Nat × Player => (ip.1, bestVal g.board ip.2)) =
          (Prod.fst : Nat × Player → Nat) := rfl
      rw [heq]
      exact (List.filter_sublist _).map Prod.fst
    have h2 : ((enumIdx 0 g.players).map Prod.fst).Nodup := by
      have hpw := enumIdx_pairwise g.players 0
      have hpw2 : ((enumIdx 0 g.players).map Prod.fst).Pairwise (· < ·) :=
        List.pairwise_map.mpr hpw
      exact List.Pairwise.imp (fun h => Nat.ne_of_lt h) hpw2
    exact (hsub.trans h1).nodup h2
  rcases hEcase : E with _ | ⟨e0, Erest⟩
  · have hactive_nil : active = [] := by
      rcases hae : active with _ | ⟨a, arest⟩
      · rfl
      · exfalso
        rw [hE_def, hae] at hEcase
        simp at hEcase
    refine ⟨[], g.players, ?_, List.nodup_nil, ?_, rfl, ?_⟩
    · simp only [showdown, ← hactive_def, hEvals, hEcase]
      rfl
    · intro i
      simp only [List.not_mem_nil, false_iff]
      rintro ⟨p, hp, hin, -⟩
      have hmem : (i, p) ∈ active := (hactive_mem i p).mpr ⟨hp, hin⟩
      rw [hactive_nil] at hmem
      exact List.not_mem_nil _ hmem
    · intro i p hp
      simp [hp]
  · have hEne : E ≠ [] := by rw [hEcase]; exact List.cons_ne_nil _ _
    obtain ⟨bv, hscan, hallmax, emax, hemax_mem, hemax⟩ := scan_top E hEne
    set ws := (E.filter (fun e => e.2 == bv)).map Prod.fst with hws_def
    have hws_mem : ∀ i : Nat, i ∈ ws ↔
        ∃ p, g.players[i]? = some p ∧ p.in_hand = true ∧
          bestVal g.board p = bv := by
      intro i
      rw [hws_def, List.mem_map]
      constructor
      · rintro ⟨⟨e1, e2⟩, hef, rfl⟩
        obtain ⟨heE, hebv⟩ := List.mem_filter.mp hef
        rw [beq_iff_eq] at hebv
        simp only at hebv
        rw [hebv] at heE
        exact (hE_mem e1 bv).mp heE
      · rintro ⟨p, hp, hin, hv⟩
        exact ⟨(i, bv),
          List.mem_filter.mpr ⟨(hE_mem i bv).mpr ⟨p, hp, hin, hv⟩, by simp⟩, rfl⟩
    have hws_ne : ws ≠ [] := by
      have hmem : emax ∈ E.filter (fun e => e.2 == bv) :=
        List.mem_filter.mpr ⟨hemax_mem, by rw [beq_iff_eq, hemax]⟩
      rw [hws_def]
      intro hnil
      rw [List.map_eq_nil_iff] at hnil
      rw [hnil] at hmem
      exact List.not_mem_nil _ hmem
    have hws_nodup : ws.Nodup :=
      hfst_nodup ws (by rw [hws_def]; exact (List.filter_sublist E).map Prod.fst)
    have hws_empty : ws.isEmpty = false := by
      rcases hw : ws with _ | ⟨w, wrest⟩
      · exact absurd hw hws_ne
      · rfl
    have hsd : showdown g = some (ws,
        ws.foldl (fun ps i => bumpStack ps i (Int.fdiv g.pot (ws.length : Int)))
          g.players) := by
      simp only [showdown, ← hactive_def, hEvals, hscan, hws_empty,
        Bool.false_eq_true, if_false]
    refine ⟨ws,
      ws.foldl (fun ps i => bumpStack ps i (Int.fdiv g.pot (ws.length : Int)))
        g.players, hsd, hws_nodup, ?_, bumpFold_length ws g.players _, ?_⟩
    · intro i
      rw [hws_mem i]
      constructor
      · rintro ⟨p, hp, hin, hv⟩
        refine ⟨p, hp, hin, ?_⟩
        intro j q hq hqin
        have hmem : (j, bestVal g.board q) ∈ E :=
          (hE_mem j _).mpr ⟨q, hq, hqin, rfl⟩
        have := hallmax _ hmem
        rw [hv]
        exact this
      · rintro ⟨p, hp, hin, hmaxi⟩
        refine ⟨p, hp, hin, ?_⟩
        obtain ⟨em1, em2⟩ := emax
        have hemax2 : em2 = bv := hemax
        obtain ⟨qm, hqm, hqmin, hqmv⟩ := (hE_mem em1 em2).mp hemax_mem
        have h1 : pyLtB (bestVal g.board p) bv = false := by
          have := hmaxi em1 qm hqm hqmin
          rwa [hqmv, hemax2] at this
        have h2 : pyLtB bv (bestVal g.board p) = false := by
          have hmem : (i, bestVal g.board p) ∈ E :=
            (hE_mem i _).mpr ⟨p, hp, hin, rfl⟩
          exact hallmax _ hmem
        rcases pyLtB_tricho (bestVal g.board p) bv with h | h | h
        · rw [h1] at h; exact absurd h Bool.false_ne_true
        · exact h
        · rw [h2] at h; exact absurd h Bool.false_ne_true
    · intro i p hp
      exact bumpFold_getElem? ws g.players _ hws_nodup i p hp

/-- Two players who both play the royal-flush board, with an odd pot of
101 chips and zeroed stacks so the payout is visible directly. -/
def gShowEx : Game :=
  { players := [{ name := "A", stack := 0, hole := [⟨0, 1⟩, ⟨1, 1⟩] },
                { name := "B", stack := 0, hole := [⟨0, 2⟩, ⟨1, 2⟩] }],
    small_blind := 10, big_blind := 20, button_index := 0,
    deck := [], board := [⟨8, 0⟩, ⟨9, 0⟩, ⟨10, 0⟩, ⟨11, 0⟩, ⟨12, 0⟩],
    pot := 101 }

/-- Witness for C4: on `gShowEx` both players tie, each receives
`101 // 2 = 50` chips, and the odd chip is paid to no one (stacks end at
50 and 50 with the pot recorded as 101). -/
theorem showdown_spec_witness :
    (∃ ws ps', showdown gShowEx = some (ws, ps') ∧
      ws.Nodup ∧
      (∀ i : Nat, i ∈ ws ↔
        ∃ p, gShowEx.players[i]? = some p ∧ p.in_hand = true ∧
          ∀ (j : Nat) (q : Player), gShowEx.players[j]? = some q →
            q.in_hand = true →
              pyLtB (bestVal gShowEx.board p) (bestVal gShowEx.board q) = false) ∧
      ps'.length = gShowEx.players.length ∧
      ∀ (i : Nat) (p : Player), gShowEx.players[i]? = some p →
        ps'[i]? = some (if i ∈ ws
          then { p with stack := p.stack + Int.fdiv gShowEx.pot (ws.length : Int) }
          else p)) ∧
    showdown gShowEx = some ([0, 1],
      [{ name := "A", stack := 50, hole := [⟨0, 1⟩, ⟨1, 1⟩] },
       { name := "B", stack := 50, hole := [⟨0, 2⟩, ⟨1, 2⟩] }]) ∧
    Int.fdiv gShowEx.pot 2 = 50 :=
  ⟨showdown_spec gShowEx (by decide), by decide, by decide⟩
